import Mathlib

/-!
Verification of the NetBERT corpus cleaning and normalization pipeline
(notebook `scripts/data_cleaning/initial_cleaning/data_processing.ipynb`).

Strings are modelled as `List Char` (a Python `str` is a sequence of Unicode
code points).  Each definition below embeds one cell or helper function of the
notebook; the pipeline is

  load (JSON shard) → flatten (space-join of `text`) → clean (whitespace
  collapse, then ASCII filter) → segment (external library, kept as a
  parameter) → `sent_cleaning` → `sent_convert` → blank-line join.
-/

/-- Whitespace in the sense of Python (`str.split()` with no argument, and
`\s` of the `re` module on `str` patterns): the ASCII whitespace characters
together with the Unicode whitespace code points recognised by
`Py_UNICODE_ISSPACE` (U+001C–U+001F, U+0085, U+00A0, U+1680, U+2000–U+200A,
U+2028, U+2029, U+202F, U+205F, U+3000). -/
def isPySpace (c : Char) : Bool :=
  let n := c.toNat
  n = 32 || n = 9 || n = 10 || n = 13 || n = 11 || n = 12 ||
  (28 ≤ n && n ≤ 31) || n = 133 || n = 160 || n = 5760 ||
  (8192 ≤ n && n ≤ 8202) || n = 8232 || n = 8233 || n = 8239 || n = 8287 || n = 12288

/-- Models `s.encode('ascii', 'ignore').decode('utf-8')` from the corpus
cleaning cell: every code point outside the 7-bit ASCII range is dropped. -/
def asciiFilter (s : List Char) : List Char :=
  s.filter (fun c => decide (c.toNat < 128))

/-- Models `re.sub(r'\s+', ' ', s)` from the corpus cleaning cell
(`df.Text.replace('\s+', ' ', regex=True)`): every maximal run of whitespace
characters is replaced by a single space. The single space standing for a run
is emitted when the run ends (at a non-whitespace character or the end). -/
def collapseWs : List Char → List Char
  | [] => []
  | [c] => if isPySpace c then [' '] else [c]
  | c :: d :: rest =>
    if isPySpace c then
      if isPySpace d then collapseWs (d :: rest)
      else ' ' :: collapseWs (d :: rest)
    else c :: collapseWs (d :: rest)

/-- Models Python `sep.join(pieces)`: the pieces concatenated with `sep`
between consecutive pieces. -/
def joinSep (sep : List Char) : List (List Char) → List Char
  | [] => []
  | [b] => b
  | b :: c :: rest => b ++ sep ++ joinSep sep (c :: rest)

/-- Models Python `s.split()` (no arguments): split on runs of whitespace,
discarding empty tokens, so leading and trailing whitespace produce nothing. -/
def pySplit : List Char → List (List Char)
  | [] => []
  | [c] => if isPySpace c then [] else [[c]]
  | c :: d :: rest =>
    if isPySpace c then pySplit (d :: rest)
    else
      if isPySpace d then [c] :: pySplit (d :: rest)
      else
        match pySplit (d :: rest) with
        | [] => [[c]]
        | t :: ts => (c :: t) :: ts

/-- Models Python `s.split(maxsplit=1)`: at most one split.  Leading
whitespace is skipped; the first token is the first maximal run of
non-whitespace; the remainder (with the whitespace run after the first token
removed, but trailing whitespace kept) is the second element when it is
nonempty.  The result has 0, 1 or 2 elements. -/
def splitMax1 (s : List Char) : List (List Char) :=
  match s.dropWhile isPySpace with
  | [] => []
  | c :: rest =>
    let tok := (c :: rest).takeWhile (fun x => !(isPySpace x))
    let rem := ((c :: rest).dropWhile (fun x => !(isPySpace x))).dropWhile isPySpace
    if rem = [] then [tok] else [tok, rem]

/-- The fixed punctuation/symbol set `spec_char` of `sent_cleaning`.  The
backtick (code point 96) and the apostrophe (code point 39) are inserted by
code point. -/
def spec_char : List Char :=
  (",?;.:/=+%".toList) ++ [Char.ofNat 96] ++ ("¨*$€-_())°!§".toList) ++
  [Char.ofNat 39] ++ ("\"&@#~®†ºπ‡¬≈©◊~∞µ…÷≠<>^".toList)

/-- Step 1 of `sent_cleaning`: split a sentence on whitespace, drop every
token of length > 2 all of whose characters lie in `spec_char`, and rejoin
the surviving tokens with single spaces. -/
def removeSymbolRuns (sent : List Char) : List Char :=
  joinSep [' ']
    ((pySplit sent).filter
      (fun x => decide (x.length ≤ 2) || !(x.all (fun c => spec_char.contains c))))

/-- Models Python `str.isdigit` on the tokens seen here: nonempty and every
character a decimal digit.  (Python also accepts some non-ASCII digit code
points; in this pipeline sentences have been ASCII-filtered before
segmentation, so only 0-9 can occur in a token.) -/
def isdigitStr (s : List Char) : Bool :=
  !(s.isEmpty) && s.all (fun c => c.isDigit)

/-- Step 2 of `sent_cleaning`: if the sentence splits (with `maxsplit=1`)
into more than one part and the first part is all digits, keep only the
second part. -/
def stripLeadingNumeral (sent : List Char) : List Char :=
  if 1 < (splitMax1 sent).length ∧ isdigitStr ((splitMax1 sent).getD 0 []) = true then
    (splitMax1 sent).getD 1 []
  else sent

/-- Step 3 of `sent_cleaning`: if the sentence splits (with `maxsplit=1`)
into more than one part and the first part is a single character belonging to
`spec_char`, keep only the second part. -/
def stripLeadingSymbol (sent : List Char) : List Char :=
  if 1 < (splitMax1 sent).length ∧ ((splitMax1 sent).getD 0 []).length = 1 ∧
      ((splitMax1 sent).getD 0 []).all (fun c => spec_char.contains c) = true then
    (splitMax1 sent).getD 1 []
  else sent

/-- Step 4 of `sent_cleaning`: keep a sentence iff its whitespace token count
is strictly greater than 2 and strictly less than 200. -/
def lengthWindow (sent : List Char) : Bool :=
  decide (2 < (pySplit sent).length) && decide ((pySplit sent).length < 200)

/-- Whitespace token count of a sentence, `len(sent.split())`. -/
def numTokens (sent : List Char) : Nat :=
  (pySplit sent).length

/-- The sentence filter `sent_cleaning` of the notebook: the four list
comprehensions applied in order. -/
def sent_cleaning (list_sent : List (List Char)) : List (List Char) :=
  let l1 := list_sent.map removeSymbolRuns
  let l2 := l1.map stripLeadingNumeral
  let l3 := l2.map stripLeadingSymbol
  l3.filter lengthWindow

/-- `sent_convert` of the notebook: join the sentences of one document with
single newlines. -/
def sent_convert (list_sent : List (List Char)) : List Char :=
  joinSep ['\n'] list_sent

/-- Models Python `str.split` on the two-character separator of two newlines
(one blank line): greedy leftmost scan for the separator.  `splitNlNl []` is
`[[]]`, matching Python where splitting the empty string gives one empty
segment. -/
def splitNlNl : List Char → List (List Char)
  | [] => [[]]
  | [c] => [[c]]
  | c :: d :: rest =>
    if c = '\n' ∧ d = '\n' then [] :: splitNlNl rest
    else
      match splitNlNl (d :: rest) with
      | [] => [[c]]
      | s :: ss => (c :: s) :: ss

/-- JSON values, as produced by `json.load`: `null` becomes Python `None`,
objects become dicts (keys are strings; `json.load` keeps the last value for
a duplicated key, so the key lists modelled here are assumed duplicate-free,
which holds for all inputs considered). -/
inductive Json where
  | null : Json
  | bool (b : Bool) : Json
  | num (n : Int) : Json
  | str (s : List Char) : Json
  | arr (elems : List Json) : Json
  | obj (fields : List (List Char × Json)) : Json

/-- One row appended by the document loader cell:
`rows.append(dict Text text, Length len text)`. -/
structure Row where
  Text : List Char
  Length : Nat
deriving DecidableEq

/-- The ways a shard load can fail.  `malformedInput` is the error class the
specification calls `MalformedInputError` (unparseable JSON, or a top-level
value the loader loop cannot iterate); `attributeError` models Python
`AttributeError` from calling `.get` on a non-dict element; `typeError`
models Python `TypeError` from space-joining a non-joinable `text` value. -/
inductive LoadError where
  | malformedInput : LoadError
  | attributeError : LoadError
  | typeError : LoadError
deriving DecidableEq

/-- The key string of the `text` field. -/
def textKey : List Char :=
  "text".toList

/-- Models Python `doc.get(key)` on a dict: the value of the first matching
field, if any. -/
def lookupField : List (List Char × Json) → List Char → Option Json
  | [], _ => none
  | (k, v) :: rest, key => if k = key then some v else lookupField rest key

/-- The elements of a JSON array when every element is a string; `none` when
some element is not (Python `str.join` then raises `TypeError`). -/
def asStrings : List Json → Option (List (List Char))
  | [] => some []
  | Json.str s :: rest => (asStrings rest).map (fun ss => s :: ss)
  | _ => none

/-- Models `' '.join(doc.get('text'))`, the text flattener: a list of strings
is joined with single spaces; a string is iterated character by character (so
its characters are joined with spaces); a dict is iterated over its keys;
any other value raises `TypeError`. -/
def flattenTextVal : Json → Except LoadError (List Char)
  | Json.arr xs =>
    match asStrings xs with
    | some ss => Except.ok (joinSep [' '] ss)
    | none => Except.error LoadError.typeError
  | Json.str s => Except.ok (joinSep [' '] (s.map (fun c => [c])))
  | Json.obj fs => Except.ok (joinSep [' '] (fs.map (fun f => f.1)))
  | _ => Except.error LoadError.typeError

/-- The body of the loader loop for one document: a non-dict element crashes
(`AttributeError` on `.get`); a dict whose `text` is absent or `null`
(Python `None`) is skipped — `doc.get('text') is not None`; otherwise the
flattened text and its character length form a row. -/
def rowOfDoc : Json → Except LoadError (Option Row)
  | Json.obj fs =>
    match lookupField fs textKey with
    | none => Except.ok none
    | some Json.null => Except.ok none
    | some v =>
      match flattenTextVal v with
      | Except.ok t => Except.ok (some { Text := t, Length := t.length })
      | Except.error e => Except.error e
  | _ => Except.error LoadError.attributeError

/-- The loader loop over the decoded documents: rows are collected in order;
the first per-document crash aborts the whole shard (no partial output). -/
def extractRows : List Json → Except LoadError (List Row)
  | [] => Except.ok []
  | d :: rest =>
    match rowOfDoc d with
    | Except.error e => Except.error e
    | Except.ok none => extractRows rest
    | Except.ok (some r) =>
      match extractRows rest with
      | Except.error e => Except.error e
      | Except.ok rs => Except.ok (r :: rs)

/-- Models `enumerate(data)` over the decoded top-level value: an array
yields its elements, a string yields its characters as one-character strings,
a dict yields its keys as strings, and any other value is not iterable
(Python `TypeError`; the specification files this under
`MalformedInputError`). -/
def iterElems : Json → Except LoadError (List Json)
  | Json.arr xs => Except.ok xs
  | Json.str s => Except.ok (s.map (fun c => Json.str [c]))
  | Json.obj fs => Except.ok (fs.map (fun f => Json.str f.1))
  | _ => Except.error LoadError.malformedInput

/-- The document loader cell for one shard.  The argument is the result of
`json.load`: `none` when the file is not parseable JSON (the parse failure
the specification calls `MalformedInputError`), `some j` when it decodes to
the value `j`. -/
def loadShard : Option Json → Except LoadError (List Row)
  | none => Except.error LoadError.malformedInput
  | some j =>
    match iterElems j with
    | Except.error e => Except.error e
    | Except.ok docs => extractRows docs

/-- The corpus cleaning cell applied to one document string: whitespace
collapse first, then ASCII filtering. -/
def cleanText (t : List Char) : List Char :=
  asciiFilter (collapseWs t)

/-- One document's contribution to the output file, given a sentence
segmenter `seg` (the external `nltk.sent_tokenize`, kept as a parameter):
clean, segment, filter, then join the surviving sentences with newlines. -/
def docBlock (seg : List Char → List (List Char)) (t : List Char) : List Char :=
  sent_convert (sent_cleaning (seg (cleanText t)))

/-- The concatenation cell: the per-document blocks joined with one blank
line (two newlines) between consecutive documents, written as the whole
output file. -/
def pipelineOut (seg : List Char → List (List Char)) (rows : List Row) : List Char :=
  joinSep ['\n', '\n'] (rows.map (fun r => docBlock seg r.Text))

/-- A concrete one-sentence-per-document segmenter used to instantiate the
pipeline theorems on closed inputs: the whole cleaned document is one
sentence, and the empty document has no sentences (as with
`nltk.sent_tokenize`). -/
def segWhole (s : List Char) : List (List Char) :=
  if s = [] then [] else [s]

/-- A concrete two-document shard: the first document's only sentence is
discarded by the filter (its only token is a symbol run), the second
document's sentence survives. -/
def rowsTwo : List Row :=
  [{ Text := ("$$$".toList), Length := 3 }, { Text := ("a b c d".toList), Length := 7 }]

/-- Whether a string contains two consecutive newline characters (a blank
line boundary, possibly overlapping others). -/
def hasNlNl : List Char → Bool
  | [] => false
  | [_] => false
  | c :: d :: rest => (decide (c = '\n') && decide (d = '\n')) || hasNlNl (d :: rest)

/-- Whether a string ends with a newline character. -/
def endsNl : List Char → Bool
  | [] => false
  | [c] => decide (c = '\n')
  | _ :: d :: rest => endsNl (d :: rest)

/-! ## Lemmas and claim theorems -/

/-- Claim C8: ASCII filtering is idempotent and never increases the length of
the string. -/
theorem asciiFilter_idem_and_length_le (s : List Char) :
    asciiFilter (asciiFilter s) = asciiFilter s ∧
    (asciiFilter s).length ≤ s.length := by
  constructor
  · unfold asciiFilter
    rw [List.filter_filter]
    simp
  · exact List.length_filter_le _ s

/-- Claim C4: every sentence in the output of the sentence filter has a
whitespace token count strictly greater than 2 and strictly less than 200. -/
theorem sent_cleaning_token_window (l : List (List Char)) (s : List Char)
    (hs : s ∈ sent_cleaning l) :
    2 < numTokens s ∧ numTokens s < 200 := by
  unfold sent_cleaning at hs
  have hw : lengthWindow s = true := List.of_mem_filter hs
  unfold lengthWindow at hw
  rw [Bool.and_eq_true, decide_eq_true_eq, decide_eq_true_eq] at hw
  exact hw

theorem sent_cleaning_token_window_witness :
    ("a b c d".toList) ∈ sent_cleaning [("a b c d".toList)] ∧
    2 < numTokens ("a b c d".toList) ∧ numTokens ("a b c d".toList) < 200 :=
  ⟨by decide, sent_cleaning_token_window [("a b c d".toList)] ("a b c d".toList) (by decide)⟩

/-- Claim C6: a sentence that becomes empty after symbol-run removal still
passes (unchanged) through the two leading-token strips, is rejected by the
length-window filter, and therefore never appears in the filter's output. -/
theorem empty_after_symbol_removal_dropped (l : List (List Char)) (s : List Char)
    (hmem : s ∈ l) (h : removeSymbolRuns s = []) :
    stripLeadingSymbol (stripLeadingNumeral (removeSymbolRuns s)) = [] ∧
    lengthWindow [] = false ∧ [] ∉ sent_cleaning l := by
  refine ⟨by rw [h]; decide, by decide, ?_⟩
  intro hc
  unfold sent_cleaning at hc
  have hw : lengthWindow [] = true := List.of_mem_filter hc
  exact absurd hw (by decide)

theorem empty_after_symbol_removal_dropped_witness :
    removeSymbolRuns ("$$$ %%%".toList) = [] ∧
    (stripLeadingSymbol (stripLeadingNumeral (removeSymbolRuns ("$$$ %%%".toList))) = [] ∧
      lengthWindow [] = false ∧ [] ∉ sent_cleaning [("$$$ %%%".toList)]) :=
  ⟨by decide,
    empty_after_symbol_removal_dropped [("$$$ %%%".toList)] ("$$$ %%%".toList)
      (by decide) (by decide)⟩

/-- Claim C9: `splitMax1` returns at most two parts, and whenever the guard
`1 < parts.length` of the leading-token strips holds, the index-1 access is
in bounds (the `getD` default is never consulted), so no step of
`sent_cleaning` can fail with an out-of-bounds access. -/
theorem splitMax1_access_safe (s : List Char) :
    (splitMax1 s).length ≤ 2 ∧
    (1 < (splitMax1 s).length →
      (splitMax1 s).get? 1 = some ((splitMax1 s).getD 1 [])) := by
  unfold splitMax1
  cases hd : s.dropWhile isPySpace with
  | nil => simp
  | cons c rest =>
    simp only []
    split
    · simp
    · simp

theorem splitMax1_access_safe_witness :
    1 < (splitMax1 ("12 abc".toList)).length ∧
    (splitMax1 ("12 abc".toList)).get? 1 =
      some ((splitMax1 ("12 abc".toList)).getD 1 []) :=
  ⟨by decide, (splitMax1_access_safe ("12 abc".toList)).2 (by decide)⟩

/-- Claim C5: a document lacking a `text` field is skipped by the loader —
no error is raised and the extracted rows are exactly those of the remaining
documents, wherever the document occurs in the shard. -/
theorem loader_skips_missing_text (pre post : List Json) (fs : List (List Char × Json))
    (h : lookupField fs textKey = none) :
    extractRows (pre ++ Json.obj fs :: post) = extractRows (pre ++ post) := by
  have hrow : rowOfDoc (Json.obj fs) = Except.ok none := by
    simp [rowOfDoc, h]
  induction pre with
  | nil =>
    simp only [List.nil_append]
    simp only [extractRows, hrow]
  | cons d pre ih =>
    simp only [List.cons_append] at ih ⊢
    simp only [extractRows, ih]

theorem loader_skips_missing_text_witness :
    extractRows
        [Json.obj [(("text".toList), Json.arr [Json.str ("ab".toList)])],
         Json.obj [(("uri".toList), Json.str [])],
         Json.obj [(("text".toList), Json.arr [Json.str ("cd".toList)])]] =
      extractRows
        [Json.obj [(("text".toList), Json.arr [Json.str ("ab".toList)])],
         Json.obj [(("text".toList), Json.arr [Json.str ("cd".toList)])]] :=
  loader_skips_missing_text
    [Json.obj [(("text".toList), Json.arr [Json.str ("ab".toList)])]]
    [Json.obj [(("text".toList), Json.arr [Json.str ("cd".toList)])]]
    [(("uri".toList), Json.str [])] rfl

theorem collapseWs_cons_nonspace (c : Char) (h : isPySpace c = false) :
    ∀ t, collapseWs (c :: t) = c :: collapseWs t
  | [] => by simp [collapseWs, h]
  | d :: t => by simp [collapseWs, h]

theorem collapseWs_cons_space_space (c d : Char) (rest : List Char)
    (hc : isPySpace c = true) (hd : isPySpace d = true) :
    collapseWs (c :: d :: rest) = collapseWs (d :: rest) := by
  simp [collapseWs, hc, hd]

theorem collapseWs_cons_space_nonspace (c d : Char) (rest : List Char)
    (hc : isPySpace c = true) (hd : isPySpace d = false) :
    collapseWs (c :: d :: rest) = ' ' :: collapseWs (d :: rest) := by
  simp [collapseWs, hc, hd]

theorem collapseWs_collapseWs : ∀ s, collapseWs (collapseWs s) = collapseWs s
  | [] => rfl
  | [c] => by
    by_cases h : isPySpace c
    · simp [collapseWs, h]
    · simp [collapseWs, h]
  | c :: d :: rest => by
    have ih := collapseWs_collapseWs (d :: rest)
    by_cases hc : isPySpace c
    · by_cases hd : isPySpace d
      · rw [collapseWs_cons_space_space c d rest hc hd, ih]
      · rw [collapseWs_cons_space_nonspace c d rest hc (by simpa using hd)]
        rw [collapseWs_cons_nonspace d (by simpa using hd) rest] at ih ⊢
        rw [collapseWs_cons_space_nonspace _ _ _ (by decide) (by simpa using hd), ih]
    · rw [collapseWs_cons_nonspace c (by simpa using hc) (d :: rest),
        collapseWs_cons_nonspace c (by simpa using hc) (collapseWs (d :: rest)), ih]

/-- Claim C7: the whitespace-collapse transformation is idempotent. -/
theorem collapseWs_idempotent (s : List Char) :
    collapseWs (collapseWs s) = collapseWs s :=
  collapseWs_collapseWs s

theorem mem_collapseWs : ∀ s c, c ∈ collapseWs s → c ∈ s ∨ c = ' '
  | [], c, h => by simp [collapseWs] at h
  | [a], c, h => by
    by_cases ha : isPySpace a
    · simp [collapseWs, ha] at h
      exact Or.inr h
    · simp [collapseWs, ha] at h
      simp [h]
  | a :: d :: rest, c, h => by
    by_cases ha : isPySpace a
    · by_cases hd : isPySpace d
      · rw [collapseWs_cons_space_space a d rest ha (by simpa using hd)] at h
        rcases mem_collapseWs (d :: rest) c h with hm | he
        · exact Or.inl (List.mem_cons_of_mem a hm)
        · exact Or.inr he
      · rw [collapseWs_cons_space_nonspace a d rest ha (by simpa using hd)] at h
        rcases List.mem_cons.mp h with he | h2
        · exact Or.inr he
        · rcases mem_collapseWs (d :: rest) c h2 with hm | he
          · exact Or.inl (List.mem_cons_of_mem a hm)
          · exact Or.inr he
    · rw [collapseWs_cons_nonspace a (by simpa using ha) (d :: rest)] at h
      rcases List.mem_cons.mp h with he | h2
      · exact Or.inl (by simp [he])
      · rcases mem_collapseWs (d :: rest) c h2 with hm | he
        · exact Or.inl (List.mem_cons_of_mem a hm)
        · exact Or.inr he

/-- Claim C2 (amended): on strings consisting only of 7-bit ASCII characters
the two cleaner transformations commute; in general they do not (see the
counterexample), and the reference behavior collapses whitespace first. -/
theorem clean_commutes_on_ascii (s : List Char) (h : ∀ c ∈ s, c.toNat < 128) :
    asciiFilter (collapseWs s) = collapseWs (asciiFilter s) := by
  have h1 : asciiFilter s = s := by
    unfold asciiFilter
    rw [List.filter_eq_self]
    intro c hc
    exact decide_eq_true (h c hc)
  rw [h1]
  unfold asciiFilter
  rw [List.filter_eq_self]
  intro c hc
  rcases mem_collapseWs s c hc with hm | he
  · exact decide_eq_true (h c hm)
  · rw [he]
    decide

theorem clean_commutes_on_ascii_witness :
    (∀ c ∈ ("a  b".toList), c.toNat < 128) ∧
    asciiFilter (collapseWs ("a  b".toList)) = collapseWs (asciiFilter ("a  b".toList)) :=
  ⟨by decide, clean_commutes_on_ascii ("a  b".toList) (by decide)⟩

/-- Claim C2 is refuted on the code as stated: for the string of `a`,
non-breaking space (U+00A0, a non-ASCII whitespace character), `b`, collapsing
whitespace first keeps a space between the words while ASCII-filtering first
deletes the character entirely, so the two transformations differ. -/
theorem clean_commute_counterexample :
    asciiFilter (collapseWs ['a', Char.ofNat 160, 'b']) ≠
      collapseWs (asciiFilter ['a', Char.ofNat 160, 'b']) := by
  decide

/-- Claim C3 (amended): an unparseable input fails with the parse error the
specification calls `MalformedInputError`, and every top-level value that is
not an array fails with an error — except the empty JSON object and the empty
JSON string, whose loader loop runs zero times and yields an empty row list.
In every failing case no rows are produced (no partial output). -/
theorem loadShard_fails_on_non_array (j : Json)
    (harr : ∀ ds, j ≠ Json.arr ds) (hobj : j ≠ Json.obj [])
    (hstr : j ≠ Json.str []) :
    loadShard none = Except.error LoadError.malformedInput ∧
    ∃ e, loadShard (some j) = Except.error e ∧
      ∀ rs, loadShard (some j) ≠ Except.ok rs := by
  refine ⟨rfl, ?_⟩
  have step : ∀ e : LoadError, loadShard (some j) = Except.error e →
      ∃ e, loadShard (some j) = Except.error e ∧
        ∀ rs, loadShard (some j) ≠ Except.ok rs := by
    intro e he
    exact ⟨e, he, by intro rs hc; rw [he] at hc; exact Except.noConfusion hc⟩
  cases j with
  | null => exact step LoadError.malformedInput rfl
  | bool b => exact step LoadError.malformedInput rfl
  | num n => exact step LoadError.malformedInput rfl
  | arr ds => exact absurd rfl (harr ds)
  | str s =>
    cases s with
    | nil => exact absurd rfl hstr
    | cons c cs => exact step LoadError.attributeError rfl
  | obj fs =>
    cases fs with
    | nil => exact absurd rfl hobj
    | cons f fs2 => exact step LoadError.attributeError rfl

theorem loadShard_fails_on_non_array_witness :
    loadShard none = Except.error LoadError.malformedInput ∧
    ∃ e, loadShard (some (Json.num 0)) = Except.error e ∧
      ∀ rs, loadShard (some (Json.num 0)) ≠ Except.ok rs :=
  loadShard_fails_on_non_array (Json.num 0)
    (fun ds h => Json.noConfusion h) (fun h => Json.noConfusion h)
    (fun h => Json.noConfusion h)

/-- Claim C3 is refuted on the code as stated: a file containing the empty
JSON object (valid JSON, not an array) or the empty JSON string makes the
loader loop iterate zero times, so the loader succeeds with an empty row list
instead of failing with `MalformedInputError`. -/
theorem loadShard_empty_object_counterexample :
    loadShard (some (Json.obj [])) = Except.ok [] ∧
    loadShard (some (Json.str [])) = Except.ok [] :=
  ⟨rfl, rfl⟩

theorem pySplit_tokens_nonspace :
    ∀ s, ∀ t ∈ pySplit s, ∀ c ∈ t, isPySpace c = false
  | [], t, ht, c, hc => by simp [pySplit] at ht
  | [a], t, ht, c, hc => by
    by_cases ha : isPySpace a
    · simp [pySplit, ha] at ht
    · simp [pySplit, ha] at ht
      subst ht
      simp at hc
      subst hc
      simpa using ha
  | a :: d :: rest, t, ht, c, hc => by
    by_cases ha : isPySpace a
    · rw [show pySplit (a :: d :: rest) = pySplit (d :: rest) by simp [pySplit, ha]] at ht
      exact pySplit_tokens_nonspace (d :: rest) t ht c hc
    · by_cases hd : isPySpace d
      · rw [show pySplit (a :: d :: rest) = [a] :: pySplit (d :: rest) by
          simp [pySplit, ha, hd]] at ht
        rcases List.mem_cons.mp ht with he | h2
        · subst he
          simp at hc
          subst hc
          simpa using ha
        · exact pySplit_tokens_nonspace (d :: rest) t h2 c hc
      · have hrec := pySplit_tokens_nonspace (d :: rest)
        rw [show pySplit (a :: d :: rest) =
            (match pySplit (d :: rest) with
              | [] => [[a]]
              | t :: ts => (a :: t) :: ts) by simp [pySplit, ha, hd]] at ht
        cases hp : pySplit (d :: rest) with
        | nil =>
          rw [hp] at ht
          simp at ht
          subst ht
          simp at hc
          subst hc
          simpa using ha
        | cons t0 ts =>
          rw [hp] at ht
          rcases List.mem_cons.mp ht with he | h2
          · subst he
            rcases List.mem_cons.mp hc with he2 | h3
            · subst he2
              simpa using ha
            · exact hrec t0 (hp ▸ List.mem_cons_self t0 ts) c h3
          · exact hrec t (hp ▸ List.mem_cons_of_mem t0 h2) c hc

theorem mem_joinSep :
    ∀ (sep : List Char) (L : List (List Char)) (c : Char), c ∈ joinSep sep L →
      c ∈ sep ∨ ∃ t ∈ L, c ∈ t
  | sep, [], c, h => by simp [joinSep] at h
  | sep, [b], c, h => by
    rw [show joinSep sep [b] = b from rfl] at h
    exact Or.inr ⟨b, List.mem_singleton_self b, h⟩
  | sep, b :: b2 :: L, c, h => by
    rw [show joinSep sep (b :: b2 :: L) = b ++ sep ++ joinSep sep (b2 :: L) from rfl] at h
    rcases List.mem_append.mp h with h1 | h2
    · rcases List.mem_append.mp h1 with hb | hs
      · exact Or.inr ⟨b, List.mem_cons_self b _, hb⟩
      · exact Or.inl hs
    · rcases mem_joinSep sep (b2 :: L) c h2 with hs | ⟨t, ht, hc⟩
      · exact Or.inl hs
      · exact Or.inr ⟨t, List.mem_cons_of_mem b ht, hc⟩

theorem mem_removeSymbolRuns (s : List Char) (c : Char)
    (h : c ∈ removeSymbolRuns s) : c = ' ' ∨ isPySpace c = false := by
  unfold removeSymbolRuns at h
  rcases mem_joinSep [' '] _ c h with hs | ⟨t, ht, hc⟩
  · simp at hs
    exact Or.inl hs
  · exact Or.inr (pySplit_tokens_nonspace s t (List.mem_of_mem_filter ht) c hc)

theorem mem_splitMax1_subset (s : List Char) (x : List Char)
    (hx : x ∈ splitMax1 s) (c : Char) (hc : c ∈ x) : c ∈ s := by
  unfold splitMax1 at hx
  cases hd : s.dropWhile isPySpace with
  | nil => rw [hd] at hx; simp at hx
  | cons a rest =>
    rw [hd] at hx
    have hsub1 : (a :: rest).Sublist s := hd ▸ List.dropWhile_sublist isPySpace
    simp only [] at hx
    split at hx
    · simp at hx
      subst hx
      exact hsub1.mem ((List.takeWhile_sublist _).mem hc)
    · rcases List.mem_cons.mp hx with he | he2
      · subst he
        exact hsub1.mem ((List.takeWhile_sublist _).mem hc)
      · simp at he2
        subst he2
        exact hsub1.mem ((List.dropWhile_sublist _).mem
          ((List.dropWhile_sublist _).mem hc))

theorem mem_stripLeadingNumeral (s : List Char) (c : Char)
    (h : c ∈ stripLeadingNumeral s) : c ∈ s := by
  unfold stripLeadingNumeral at h
  split at h
  · next hg =>
    have hlen : 1 < (splitMax1 s).length := hg.1
    have hmem : (splitMax1 s).getD 1 [] ∈ splitMax1 s := by
      rw [List.getD_eq_getElem _ _ (by omega)]
      exact List.getElem_mem _
    exact mem_splitMax1_subset s _ hmem c h
  · exact h

theorem mem_stripLeadingSymbol (s : List Char) (c : Char)
    (h : c ∈ stripLeadingSymbol s) : c ∈ s := by
  unfold stripLeadingSymbol at h
  split at h
  · next hg =>
    have hlen : 1 < (splitMax1 s).length := hg.1
    have hmem : (splitMax1 s).getD 1 [] ∈ splitMax1 s := by
      rw [List.getD_eq_getElem _ _ (by omega)]
      exact List.getElem_mem _
    exact mem_splitMax1_subset s _ hmem c h
  · exact h

theorem survivor_no_newline_and_nonempty (l : List (List Char)) (s : List Char)
    (hs : s ∈ sent_cleaning l) : ('\n') ∉ s ∧ s ≠ [] := by
  unfold sent_cleaning at hs
  have hw : lengthWindow s = true := List.of_mem_filter hs
  have hmem := List.mem_of_mem_filter hs
  constructor
  · intro hnl
    rcases List.mem_map.mp hmem with ⟨s2, hs2, he2⟩
    rcases List.mem_map.mp hs2 with ⟨s1, hs1, he1⟩
    rcases List.mem_map.mp hs1 with ⟨s0, hs0, he0⟩
    subst he2 he1 he0
    have h1 : ('\n') ∈ removeSymbolRuns s0 :=
      mem_stripLeadingNumeral _ _ (mem_stripLeadingSymbol _ _ hnl)
    rcases mem_removeSymbolRuns s0 ('\n') h1 with he | hf
    · exact absurd he (by decide)
    · exact absurd hf (by decide)
  · intro he
    subst he
    exact absurd hw (by decide)

theorem hasNlNl_of_nlFree : ∀ b : List Char, ('\n') ∉ b → hasNlNl b = false
  | [], _ => rfl
  | [c], _ => rfl
  | c :: d :: rest, h => by
    have hc : c ≠ '\n' := fun he => h (by simp [he])
    have hrec : ('\n') ∉ d :: rest := fun hm => h (List.mem_cons_of_mem c hm)
    simp [hasNlNl, hc, hasNlNl_of_nlFree (d :: rest) hrec]

theorem endsNl_of_nlFree : ∀ b : List Char, ('\n') ∉ b → endsNl b = false
  | [], _ => rfl
  | [c], h => by
    have hc : c ≠ '\n' := fun he => h (by simp [he])
    simp [endsNl, hc]
  | c :: d :: rest, h => by
    have hrec : ('\n') ∉ d :: rest := fun hm => h (List.mem_cons_of_mem c hm)
    simp [endsNl, endsNl_of_nlFree (d :: rest) hrec]

theorem hasNlNl_append : ∀ b z : List Char, ('\n') ∉ b → hasNlNl z = false →
    hasNlNl (b ++ z) = false
  | [], z, _, hz => hz
  | c :: b2, z, hb, hz => by
    have hc : c ≠ '\n' := fun he => hb (by simp [he])
    have hb2 : ('\n') ∉ b2 := fun hm => hb (List.mem_cons_of_mem c hm)
    have hrec := hasNlNl_append b2 z hb2 hz
    cases he : b2 ++ z with
    | nil => rw [List.cons_append, he]; rfl
    | cons e w =>
      rw [List.cons_append, he]
      rw [he] at hrec
      simp [hasNlNl, hrec, hc]

theorem endsNl_append : ∀ b z : List Char, z ≠ [] → endsNl (b ++ z) = endsNl z
  | [], z, _ => rfl
  | [c], z, hz => by
    cases z with
    | nil => exact absurd rfl hz
    | cons e w => rfl
  | c :: d :: b2, z, hz => by
    rw [List.cons_append, List.cons_append]
    rw [show endsNl (c :: d :: (b2 ++ z)) = endsNl (d :: (b2 ++ z)) from rfl]
    rw [← List.cons_append]
    exact endsNl_append (d :: b2) z hz

theorem joinSep_cons_head (sep : List Char) (x : List Char) (L : List (List Char)) :
    ∃ w, joinSep sep (x :: L) = x ++ w := by
  cases L with
  | nil => exact ⟨[], (List.append_nil x).symm⟩
  | cons y L2 =>
    refine ⟨sep ++ joinSep sep (y :: L2), ?_⟩
    rw [show joinSep sep (x :: y :: L2) = x ++ sep ++ joinSep sep (y :: L2) from rfl,
      List.append_assoc]

theorem block_good :
    ∀ sents : List (List Char), (∀ x ∈ sents, x ≠ [] ∧ ('\n') ∉ x) →
      hasNlNl (joinSep ['\n'] sents) = false ∧ endsNl (joinSep ['\n'] sents) = false
  | [], _ => ⟨rfl, rfl⟩
  | [b], h => by
    have hb := h b (List.mem_singleton_self b)
    exact ⟨hasNlNl_of_nlFree b hb.2, endsNl_of_nlFree b hb.2⟩
  | b :: c :: rest, h => by
    have hb := h b (List.mem_cons_self b _)
    have hc := h c (List.mem_cons_of_mem b (List.mem_cons_self c _))
    have hrest : ∀ x ∈ c :: rest, x ≠ [] ∧ ('\n') ∉ x :=
      fun x hx => h x (List.mem_cons_of_mem b hx)
    have ih := block_good (c :: rest) hrest
    have hJ : joinSep ['\n'] (b :: c :: rest) = b ++ ('\n' :: joinSep ['\n'] (c :: rest)) := by
      rw [show joinSep ['\n'] (b :: c :: rest) =
        b ++ ['\n'] ++ joinSep ['\n'] (c :: rest) from rfl]
      rw [List.append_assoc]
      rfl
    obtain ⟨w, hw⟩ := joinSep_cons_head ['\n'] c rest
    obtain ⟨e, c2, hcc⟩ := List.exists_cons_of_ne_nil hc.1
    · have hce : e ≠ '\n' := by
        intro he
        exact hc.2 (by rw [hcc, he]; exact List.mem_cons_self _ _)
      have hJ2 : joinSep ['\n'] (c :: rest) = e :: (c2 ++ w) := by
        rw [hw, hcc]
        rfl
      constructor
      · rw [hJ]
        apply hasNlNl_append b _ hb.2
        rw [hJ2]
        rw [show hasNlNl ('\n' :: e :: (c2 ++ w)) =
          ((decide (('\n' : Char) = '\n') && decide (e = '\n')) ||
            hasNlNl (e :: (c2 ++ w))) from rfl]
        rw [← hJ2]
        simp [hce, ih.1]
      · rw [hJ]
        rw [endsNl_append b _ (by simp)]
        rw [hJ2]
        rw [show endsNl ('\n' :: e :: (c2 ++ w)) = endsNl (e :: (c2 ++ w)) from rfl]
        rw [← hJ2]
        exact ih.2

theorem splitNlNl_cons_of_ne (c d : Char) (rest : List Char)
    (h : ¬(c = '\n' ∧ d = '\n')) :
    splitNlNl (c :: d :: rest) =
      match splitNlNl (d :: rest) with
      | [] => [[c]]
      | s :: ss => (c :: s) :: ss := by
  simp [splitNlNl, h]

theorem splitNlNl_ne_nil : ∀ s, splitNlNl s ≠ []
  | [] => by simp [splitNlNl]
  | [c] => by simp [splitNlNl]
  | c :: d :: rest => by
    by_cases h : c = '\n' ∧ d = '\n'
    · simp [splitNlNl, h]
    · rw [splitNlNl_cons_of_ne c d rest h]
      cases hp : splitNlNl (d :: rest) with
      | nil => simp
      | cons x xs => simp

theorem splitNlNl_no_sep : ∀ b, hasNlNl b = false → splitNlNl b = [b]
  | [], _ => rfl
  | [c], _ => rfl
  | c :: d :: rest, h => by
    have hnot : ¬(c = '\n' ∧ d = '\n') := by
      intro hcd
      rw [show hasNlNl (c :: d :: rest) =
        ((decide (c = '\n') && decide (d = '\n')) || hasNlNl (d :: rest)) from rfl] at h
      simp [hcd.1, hcd.2] at h
    have hrec : hasNlNl (d :: rest) = false := by
      rw [show hasNlNl (c :: d :: rest) =
        ((decide (c = '\n') && decide (d = '\n')) || hasNlNl (d :: rest)) from rfl] at h
      exact (Bool.or_eq_false_iff.mp h).2
    rw [splitNlNl_cons_of_ne c d rest hnot, splitNlNl_no_sep (d :: rest) hrec]

theorem splitNlNl_append_sep :
    ∀ (b t : List Char), hasNlNl b = false → endsNl b = false →
      splitNlNl (b ++ '\n' :: '\n' :: t) = b :: splitNlNl t
  | [], t, _, _ => by simp [splitNlNl]
  | [c], t, _, h2 => by
    have hc : c ≠ '\n' := by
      rw [show endsNl [c] = decide (c = '\n') from rfl] at h2
      simpa using h2
    rw [List.singleton_append,
      splitNlNl_cons_of_ne c '\n' ('\n' :: t) (fun hcd => hc hcd.1),
      show splitNlNl ('\n' :: '\n' :: t) = [] :: splitNlNl t by simp [splitNlNl]]
  | c :: d :: rest, t, h1, h2 => by
    have hnot : ¬(c = '\n' ∧ d = '\n') := by
      intro hcd
      rw [show hasNlNl (c :: d :: rest) =
        ((decide (c = '\n') && decide (d = '\n')) || hasNlNl (d :: rest)) from rfl] at h1
      simp [hcd.1, hcd.2] at h1
    have hrec1 : hasNlNl (d :: rest) = false := by
      rw [show hasNlNl (c :: d :: rest) =
        ((decide (c = '\n') && decide (d = '\n')) || hasNlNl (d :: rest)) from rfl] at h1
      exact (Bool.or_eq_false_iff.mp h1).2
    have hrec2 : endsNl (d :: rest) = false := h2
    have ih := splitNlNl_append_sep (d :: rest) t hrec1 hrec2
    rw [List.cons_append]
    rw [show (d :: rest) ++ '\n' :: '\n' :: t = d :: (rest ++ '\n' :: '\n' :: t)
      from rfl] at ih ⊢
    rw [splitNlNl_cons_of_ne c d (rest ++ '\n' :: '\n' :: t) hnot, ih]

theorem splitNlNl_joinSep :
    ∀ blocks : List (List Char), blocks ≠ [] →
      (∀ b ∈ blocks, hasNlNl b = false ∧ endsNl b = false) →
      splitNlNl (joinSep ['\n', '\n'] blocks) = blocks
  | [], h, _ => absurd rfl h
  | [b], _, hg => splitNlNl_no_sep b (hg b (List.mem_singleton_self b)).1
  | b :: c :: rest, _, hg => by
    have hb := hg b (List.mem_cons_self b _)
    have hrest : ∀ x ∈ c :: rest, hasNlNl x = false ∧ endsNl x = false :=
      fun x hx => hg x (List.mem_cons_of_mem b hx)
    have ih := splitNlNl_joinSep (c :: rest) (by simp) hrest
    rw [show joinSep ['\n', '\n'] (b :: c :: rest) =
      b ++ ['\n', '\n'] ++ joinSep ['\n', '\n'] (c :: rest) from rfl]
    rw [List.append_assoc]
    rw [show ['\n', '\n'] ++ joinSep ['\n', '\n'] (c :: rest) =
      '\n' :: '\n' :: joinSep ['\n', '\n'] (c :: rest) from rfl]
    rw [splitNlNl_append_sep b _ hb.1 hb.2, ih]

theorem docBlock_good (seg : List Char → List (List Char)) (t : List Char) :
    hasNlNl (docBlock seg t) = false ∧ endsNl (docBlock seg t) = false := by
  unfold docBlock sent_convert
  apply block_good
  intro x hx
  have h := survivor_no_newline_and_nonempty (seg (cleanText t)) x hx
  exact ⟨h.2, h.1⟩

theorem splitNlNl_pipelineOut (seg : List Char → List (List Char))
    (rows : List Row) (h : rows ≠ []) :
    splitNlNl (pipelineOut seg rows) = rows.map (fun r => docBlock seg r.Text) := by
  unfold pipelineOut
  apply splitNlNl_joinSep
  · simp [h]
  · intro b hb
    rcases List.mem_map.mp hb with ⟨r, _, he⟩
    subst he
    exact docBlock_good seg r.Text

/-- Claim C1 (amended): the blank-line-separated segments of the output file
are exactly the per-document blocks of all loaded documents — one segment per
loaded document, not per document with surviving sentences.  A document whose
filtered sentence list is empty contributes an empty segment, so a blank-line
pair (or a blank line at the start or end of the file) appears wherever such
a document sits. -/
theorem output_segments_eq_loaded_documents (seg : List Char → List (List Char))
    (rows : List Row) (h : rows ≠ []) :
    (splitNlNl (pipelineOut seg rows)).length = rows.length := by
  rw [splitNlNl_pipelineOut seg rows h, List.length_map]

theorem output_segments_eq_loaded_documents_witness :
    rowsTwo ≠ [] ∧ (splitNlNl (pipelineOut segWhole rowsTwo)).length = rowsTwo.length :=
  ⟨by decide, output_segments_eq_loaded_documents segWhole rowsTwo (by decide)⟩

/-- Claim C1 is refuted on the code as stated: in the concrete two-document
run `rowsTwo` under the one-sentence segmenter, only one document survives
filtering with at least one sentence, yet the output has two blank-line
separated segments, and the file starts with a blank line. -/
theorem output_segments_counterexample :
    (splitNlNl (pipelineOut segWhole rowsTwo)).length ≠
      (rowsTwo.filter
        (fun r => !(sent_cleaning (segWhole (cleanText r.Text))).isEmpty)).length ∧
    (pipelineOut segWhole rowsTwo).take 2 = ['\n', '\n'] := by
  decide

/-- Claim C10: a document whose `text` field is the empty list is not skipped
by the loader — it becomes a row with empty text and recorded length 0, flows
through cleaning, segmentation and filtering to an empty sentence list, and
still participates as an element of the final document join (the output has
one blank-line segment for it). -/
theorem empty_text_list_not_skipped (fs : List (List Char × Json))
    (seg : List Char → List (List Char)) (rows : List Row)
    (hlook : lookupField fs textKey = some (Json.arr []))
    (hseg : seg [] = []) :
    rowOfDoc (Json.obj fs) = Except.ok (some { Text := [], Length := 0 }) ∧
    sent_cleaning (seg (cleanText [])) = [] ∧
    docBlock seg [] = [] ∧
    (splitNlNl (pipelineOut seg ({ Text := [], Length := 0 } :: rows))).length =
      rows.length + 1 := by
  have hclean : cleanText [] = [] := rfl
  refine ⟨?_, ?_, ?_, ?_⟩
  · simp [rowOfDoc, hlook, flattenTextVal, asStrings, joinSep]
  · rw [hclean, hseg]
    rfl
  · unfold docBlock
    rw [hclean, hseg]
    rfl
  · rw [splitNlNl_pipelineOut seg _ (by simp), List.length_map, List.length_cons]

theorem empty_text_list_not_skipped_witness :
    rowOfDoc (Json.obj [(textKey, Json.arr [])]) =
      Except.ok (some { Text := [], Length := 0 }) ∧
    sent_cleaning (segWhole (cleanText [])) = [] ∧
    docBlock segWhole [] = [] ∧
    (splitNlNl (pipelineOut segWhole
        (({ Text := [], Length := 0 } : Row) ::
          [({ Text := ("a b c d".toList), Length := 7 } : Row)]))).length =
      [({ Text := ("a b c d".toList), Length := 7 } : Row)].length + 1 :=
  empty_text_list_not_skipped [(textKey, Json.arr [])] segWhole
    [({ Text := ("a b c d".toList), Length := 7 } : Row)] rfl rfl
